/-
Verification of the warphybrid blocked parallel compression codec
(src/warp_compress.c) via a shallow embedding in Lean 4.

Byte buffers are modelled as `List Nat` (each entry a byte value).  The
external single-block codec (LZ4 in the C source) is out of the core's
scope; it is modelled as an abstract `Codec` structure, and theorems that
depend on its behaviour take the contract stated in the design document
as a hypothesis: a block kept as compressed data (nonempty output
strictly smaller than the input) decompresses back to the original
bytes.  `LZ4_compress_default` returning `0` on failure corresponds to
`compress` returning the empty list.

The OpenMP-parallel loops write disjoint regions determined before the
loop starts, so their sequential semantics (iteration in index order) is
the deterministic meaning embedded here.
-/
import Mathlib

namespace WarpHybrid

/-- `MAX_BLOCK_SIZE` from warp_compress.c line 10: 512 MiB. -/
def MAX_BLOCK_SIZE : Nat := 512 * 1024 * 1024

/-- `HEADER_SIZE` from warp_compress.c line 11: 4 bytes original block
size + 4 bytes compressed size. -/
def HEADER_SIZE : Nat := 8

/-- The external single-block codec (LZ4 in the source).  `compress`
returns the produced bytes, the empty list standing for the `0` return
of `LZ4_compress_default` on failure; `decompress` takes the payload and
the capacity/expected size and returns `none` for a negative
`LZ4_decompress_safe` return. -/
structure Codec where
  compress : List Nat → List Nat
  decompress : List Nat → Nat → Option (List Nat)

/-- The codec contract assumed of the external single-block codec:
whenever compression of a block succeeds and strictly shrinks it (the
only case in which compress_hybrid keeps the compressed form),
decompressing the result at the block's original size restores the
block. -/
def CodecOK (c : Codec) : Prop :=
  ∀ b : List Nat, 0 < (c.compress b).length → (c.compress b).length < b.length →
    c.decompress (c.compress b) b.length = some b

/-- `num_blocks = (in_size + block_size - 1) / block_size`
(warp_compress.c line 43). -/
def numBlocks (N bs : Nat) : Nat := (N + bs - 1) / bs

/-- Per-block original size (warp_compress.c line 54):
`(offset_in + block_size <= in_size) ? block_size : in_size - offset_in`. -/
def blockOrigSize (N bs i : Nat) : Nat :=
  if i * bs + bs ≤ N then bs else N - i * bs

/-- The bytes of block `i`: `orig_size` bytes starting at
`offset_in = i * block_size`. -/
def blockBytes (in_data : List Nat) (bs i : Nat) : List Nat :=
  (in_data.drop (i * bs)).take (blockOrigSize in_data.length bs i)

/-- `BlockResult` (warp_compress.c lines 14-19). -/
structure BlockResult where
  offset_in : Nat
  orig_size : Nat
  comp_size : Nat
  comp_buf : List Nat
deriving Repr, DecidableEq

/-- Body of the parallel encode loop (warp_compress.c lines 52-90):
compress the block; keep the result iff `comp_size > 0 &&
comp_size < orig_size`, otherwise store the original bytes verbatim. -/
def encodeBlock (c : Codec) (in_data : List Nat) (bs i : Nat) : BlockResult :=
  let offset_in := i * bs
  let orig_size := blockOrigSize in_data.length bs i
  let blk := (in_data.drop offset_in).take orig_size
  let comp := c.compress blk
  if 0 < comp.length ∧ comp.length < orig_size then
    ⟨offset_in, orig_size, comp.length, comp⟩
  else
    ⟨offset_in, orig_size, orig_size, blk⟩

/-- Little-endian byte serialization of a `uint32_t` value, as `memcpy`
of the 4-byte header fields does (warp_compress.c lines 112-113). -/
def u32le (v : Nat) : List Nat :=
  [v % 256, v / 256 % 256, v / 65536 % 256, v / 16777216 % 256]

/-- One frame as laid out by the writer loop (warp_compress.c lines
108-118): `orig_size` as u32 at bytes 0-3, `comp_size` as u32 at bytes
4-7, then `comp_size_32` payload bytes. -/
def frameOf (r : BlockResult) : List Nat :=
  u32le r.orig_size ++ u32le r.comp_size ++ r.comp_buf.take (r.comp_size % 4294967296)

/-- All block results in block order. -/
def blockResults (c : Codec) (in_data : List Nat) (bs : Nat) : List BlockResult :=
  (List.range (numBlocks in_data.length bs)).map (encodeBlock c in_data bs)

/-- The frame stream: frames concatenated in block order. -/
def streamOf (rs : List BlockResult) : List Nat :=
  (rs.map frameOf).flatten

/-- `compress_hybrid` (warp_compress.c lines 23-123).  Validation: error
if `block_size > MAX_BLOCK_SIZE`, then if `block_size == 0`.  Otherwise
the partitioned blocks are encoded and their frames concatenated.
`none` models the NULL return with a raised error. -/
def compress_hybrid (c : Codec) (in_data : List Nat) (bs : Nat) : Option (List Nat) :=
  if MAX_BLOCK_SIZE < bs then none
  else if bs = 0 then none
  else some (streamOf (blockResults c in_data bs))

/-- `BlockIndex` (warp_compress.c lines 127-132). -/
structure BlockIndex where
  in_offset : Nat
  out_offset : Nat
  comp_size : Nat
  orig_size : Nat
deriving Repr, DecidableEq

/-- Reassemble a `uint32_t` from 4 bytes, little-endian, as the decoder's
`memcpy` into `uint32_t` does (warp_compress.c lines 155-156). -/
def bytesToU32 (b0 b1 b2 b3 : Nat) : Nat :=
  b0 + 256 * b1 + 65536 * b2 + 16777216 * b3

/-- Pass 1 of `decompress_hybrid` (warp_compress.c lines 153-192): while
at least `HEADER_SIZE` bytes remain, read the header, fail if
`block_size > MAX_BLOCK_SIZE || comp_size > in_size - (in_offset +
HEADER_SIZE)`, otherwise record the entry and advance by `HEADER_SIZE +
comp_size`; after the loop fail unless the cursor sits exactly at the
end of the input.  The argument list is the unconsumed suffix of the
input, `in_offset` the cursor, `out_total` the running output size. -/
def buildIndex : List Nat → Nat → Nat → Option (List BlockIndex × Nat)
  | b0 :: b1 :: b2 :: b3 :: c0 :: c1 :: c2 :: c3 :: tail, in_offset, out_total =>
    let orig := bytesToU32 b0 b1 b2 b3
    let comp := bytesToU32 c0 c1 c2 c3
    if MAX_BLOCK_SIZE < orig ∨ tail.length < comp then none
    else
      match buildIndex (tail.drop comp) (in_offset + HEADER_SIZE + comp) (out_total + orig) with
      | none => none
      | some (idx, tot) =>
        some (⟨in_offset + HEADER_SIZE, out_total, comp, orig⟩ :: idx, tot)
  | rest, _, out_total => if rest.isEmpty then some ([], out_total) else none
termination_by rest _ _ => rest.length
decreasing_by
  simp only [List.length_drop, List.length_cons]
  omega

/-- Write `data` into `buf` starting at offset `off`, leaving the rest
of the buffer unchanged: the effect of one block's write into its
disjoint region of the pre-sized output buffer. -/
def writeAt (buf : List Nat) (off : Nat) (data : List Nat) : List Nat :=
  buf.take off ++ data ++ buf.drop (off + data.length)

/-- Body of the parallel decode loop for one block (warp_compress.c
lines 209-233): if `comp_size == orig_size` copy `orig_size` payload
bytes verbatim, otherwise run the single-block decompressor on the
`comp_size` payload bytes and fail unless it produces exactly
`orig_size` bytes.  Returns the bytes for the block's output region. -/
def decodeBlockContent (c : Codec) (in_data : List Nat) (b : BlockIndex) : Option (List Nat) :=
  if b.comp_size = b.orig_size then
    some ((in_data.drop b.in_offset).take b.orig_size)
  else
    match c.decompress ((in_data.drop b.in_offset).take b.comp_size) b.orig_size with
    | none => none
    | some out => if out.length = b.orig_size then some out else none

/-- Pass 2 of `decompress_hybrid` (warp_compress.c lines 205-242): decode
every indexed block into its output region; any block failure fails the
whole pass (the shared `error_flag`). -/
def decodeBlocks (c : Codec) (in_data : List Nat) :
    List BlockIndex → List Nat → Option (List Nat)
  | [], buf => some buf
  | b :: rest, buf =>
    match decodeBlockContent c in_data b with
    | none => none
    | some out => decodeBlocks c in_data rest (writeAt buf b.out_offset out)

/-- `decompress_hybrid` (warp_compress.c lines 136-245): build the index
over the whole input, allocate the output at the accumulated
uncompressed size, then decode all blocks.  `none` models the NULL
return with a raised error. -/
def decompress_hybrid (c : Codec) (in_data : List Nat) : Option (List Nat) :=
  match buildIndex in_data 0 0 with
  | none => none
  | some (idx, total) => decodeBlocks c in_data idx (List.replicate total 0)

/-! ### Basic helper lemmas -/

/-- Serializing a `uint32_t` value and reading it back little-endian is
the identity below `2^32`. -/
theorem bytesToU32_u32le (v : Nat) (h : v < 4294967296) :
    bytesToU32 (v % 256) (v / 256 % 256) (v / 65536 % 256) (v / 16777216 % 256) = v := by
  unfold bytesToU32
  omega

/-- Well-formedness of a block result as produced by the encoder: the
payload buffer has exactly `comp_size` bytes, `comp_size` never exceeds
`orig_size`, and `orig_size` is within the configured ceiling. -/
def WFResult (r : BlockResult) : Prop :=
  r.comp_buf.length = r.comp_size ∧ r.comp_size ≤ r.orig_size ∧
    r.orig_size ≤ MAX_BLOCK_SIZE

theorem blockOrigSize_le_bs (N bs i : Nat) : blockOrigSize N bs i ≤ bs := by
  unfold blockOrigSize
  split <;> omega

theorem blockBytes_length (B : List Nat) (bs i : Nat) :
    (blockBytes B bs i).length = blockOrigSize B.length bs i := by
  unfold blockBytes blockOrigSize
  simp only [List.length_take, List.length_drop]
  split <;> omega

theorem encodeBlock_orig (c : Codec) (B : List Nat) (bs i : Nat) :
    (encodeBlock c B bs i).orig_size = blockOrigSize B.length bs i := by
  simp only [encodeBlock]
  split <;> rfl

theorem encodeBlock_offset (c : Codec) (B : List Nat) (bs i : Nat) :
    (encodeBlock c B bs i).offset_in = i * bs := by
  simp only [encodeBlock]
  split <;> rfl

theorem encodeBlock_wf (c : Codec) (B : List Nat) (bs i : Nat)
    (hbs : bs ≤ MAX_BLOCK_SIZE) : WFResult (encodeBlock c B bs i) := by
  have horig := blockOrigSize_le_bs B.length bs i
  have hlen := blockBytes_length B bs i
  unfold WFResult
  simp only [encodeBlock]
  split
  case isTrue h => exact ⟨rfl, Nat.le_of_lt h.2, Nat.le_trans horig hbs⟩
  case isFalse h => exact ⟨hlen, Nat.le_refl _, Nat.le_trans horig hbs⟩

theorem frameOf_wf (r : BlockResult) (h : WFResult r) :
    frameOf r = u32le r.orig_size ++ u32le r.comp_size ++ r.comp_buf := by
  obtain ⟨h1, h2, h3⟩ := h
  have hlt : r.comp_size < 4294967296 := by
    have : MAX_BLOCK_SIZE < 4294967296 := by decide
    omega
  unfold frameOf
  rw [Nat.mod_eq_of_lt hlt, List.take_of_length_le (Nat.le_of_eq h1)]

theorem frameOf_length (r : BlockResult) (h : WFResult r) :
    (frameOf r).length = HEADER_SIZE + r.comp_size := by
  rw [frameOf_wf r h]
  simp [u32le, HEADER_SIZE, h.1]
  omega

/-! ### One step of the index pass -/

/-- One step of the index pass on a stream starting with an 8-byte
header holding `o` and `s`: the validation looks only at
`o ≤ MAX_BLOCK_SIZE` and at `s` against the remaining length — no
relation between `s` and `o` is imposed. -/
theorem buildIndex_cons8 (o s : Nat) (tail : List Nat) (off tot : Nat)
    (ho : o < 4294967296) (hs : s < 4294967296) :
    buildIndex (u32le o ++ u32le s ++ tail) off tot =
      if MAX_BLOCK_SIZE < o ∨ tail.length < s then none
      else
        match buildIndex (tail.drop s) (off + HEADER_SIZE + s) (tot + o) with
        | none => none
        | some (idx, t) => some (⟨off + HEADER_SIZE, tot, s, o⟩ :: idx, t) := by
  have hcons : u32le o ++ u32le s ++ tail =
      o % 256 :: (o / 256 % 256) :: (o / 65536 % 256) :: (o / 16777216 % 256) ::
      (s % 256) :: (s / 256 % 256) :: (s / 65536 % 256) :: (s / 16777216 % 256) :: tail := by
    simp [u32le]
  rw [hcons, buildIndex]
  rw [bytesToU32_u32le o ho, bytesToU32_u32le s hs]

/-- A well-formed frame parses to exactly its block's index entry, and
the pass continues behind it. -/
theorem buildIndex_frame (r : BlockResult) (rest : List Nat) (off tot : Nat)
    (h : WFResult r) :
    buildIndex (frameOf r ++ rest) off tot =
      match buildIndex rest (off + HEADER_SIZE + r.comp_size) (tot + r.orig_size) with
      | none => none
      | some (idx, t) =>
        some (⟨off + HEADER_SIZE, tot, r.comp_size, r.orig_size⟩ :: idx, t) := by
  obtain ⟨h1, h2, h3⟩ := h
  have hmax : MAX_BLOCK_SIZE < 4294967296 := by decide
  rw [frameOf_wf r ⟨h1, h2, h3⟩, List.append_assoc,
    buildIndex_cons8 r.orig_size r.comp_size (r.comp_buf ++ rest) off tot
      (by omega) (by omega)]
  have hcond : ¬(MAX_BLOCK_SIZE < r.orig_size ∨ (r.comp_buf ++ rest).length < r.comp_size) := by
    simp only [List.length_append, h1]
    omega
  rw [if_neg hcond]
  have hdrop : (r.comp_buf ++ rest).drop r.comp_size = rest := by
    rw [← h1, List.drop_left]
  rw [hdrop]

/-- The index the sequential pass reconstructs from a frame stream,
expressed over the block results that produced it. -/
def mkIdx : List BlockResult → Nat → Nat → List BlockIndex
  | [], _, _ => []
  | r :: rest, off, tot =>
    ⟨off + HEADER_SIZE, tot, r.comp_size, r.orig_size⟩ ::
      mkIdx rest (off + HEADER_SIZE + r.comp_size) (tot + r.orig_size)

/-- Total uncompressed size of a list of block results. -/
def sumOrig (rs : List BlockResult) : Nat :=
  (rs.map (fun r => r.orig_size)).sum

/-- The index pass accepts every stream of well-formed frames and
reconstructs the per-block index and the total uncompressed size. -/
theorem buildIndex_streamOf (rs : List BlockResult) (off tot : Nat)
    (h : ∀ r ∈ rs, WFResult r) :
    buildIndex (streamOf rs) off tot = some (mkIdx rs off tot, tot + sumOrig rs) := by
  induction rs generalizing off tot with
  | nil => simp [streamOf, buildIndex, mkIdx, sumOrig]
  | cons r rest ih =>
    have hr : WFResult r := h r (by simp)
    have hrest : ∀ x ∈ rest, WFResult x := fun x hx => h x (by simp [hx])
    have hstream : streamOf (r :: rest) = frameOf r ++ streamOf rest := by
      simp [streamOf]
    rw [hstream, buildIndex_frame r (streamOf rest) off tot hr,
      ih (off + HEADER_SIZE + r.comp_size) (tot + r.orig_size) hrest]
    simp [mkIdx, sumOrig]
    omega

/-! ### Invariants of the reconstructed index -/

/-- The central decode-side invariant: each entry's header starts
exactly where the previous entry's payload ends (`HEADER_SIZE` before
its payload), and each entry's output region starts exactly where the
previous one ends. -/
def IndexChained : List BlockIndex → Nat → Nat → Prop
  | [], _, _ => True
  | b :: rest, inOff, outOff =>
    b.in_offset = inOff + HEADER_SIZE ∧ b.out_offset = outOff ∧
      IndexChained rest (b.in_offset + b.comp_size) (outOff + b.orig_size)

theorem buildIndex_chained : ∀ (E : List Nat) (a b : Nat) (idx : List BlockIndex) (tot : Nat),
    buildIndex E a b = some (idx, tot) →
    IndexChained idx a b ∧ tot = b + (idx.map (fun x => x.orig_size)).sum := by
  intro E a b
  induction E, a, b using buildIndex.induct with
  | case1 b0 b1 b2 b3 c0 c1 c2 c3 tail inOff outTot orig comp hbad =>
    intro idx tot h
    rw [buildIndex, if_pos hbad] at h
    exact absurd h (by simp)
  | case2 b0 b1 b2 b3 c0 c1 c2 c3 tail inOff outTot orig comp hok hrec ih =>
    intro idx tot h
    rw [buildIndex, if_neg hok, hrec] at h
    exact absurd h (by simp)
  | case3 b0 b1 b2 b3 c0 c1 c2 c3 tail inOff outTot orig comp hok idx0 tot0 hrec ih =>
    intro idx tot h
    rw [buildIndex, if_neg hok, hrec] at h
    injection h with h2
    injection h2 with ha hb
    subst ha hb
    obtain ⟨hch, hsum⟩ := ih idx0 tot0 hrec
    refine ⟨⟨rfl, rfl, ?_⟩, ?_⟩
    · exact hch
    · simp [hsum]
      omega
  | case4 rest a b hne hemp =>
    intro idx tot h
    rw [buildIndex] at h
    · rw [if_pos hemp] at h
      injection h with h2
      injection h2 with ha hb
      subst ha hb
      exact ⟨trivial, by simp [IndexChained]⟩
    · exact hne
  | case5 rest a b hne hemp =>
    intro idx tot h
    rw [buildIndex] at h
    · rw [if_neg hemp] at h
      exact absurd h (by simp)
    · exact hne

/-- `IndexChained` in indexed form: successor entries advance the input
offset by exactly `comp_size + HEADER_SIZE` and the output offset by
exactly `orig_size`. -/
theorem indexChained_get : ∀ (idx : List BlockIndex) (a b : Nat), IndexChained idx a b →
    ∀ i, (hi : i + 1 < idx.length) →
      (idx.get ⟨i + 1, hi⟩).in_offset
        = (idx.get ⟨i, Nat.lt_of_succ_lt hi⟩).in_offset
          + (idx.get ⟨i, Nat.lt_of_succ_lt hi⟩).comp_size + HEADER_SIZE ∧
      (idx.get ⟨i + 1, hi⟩).out_offset
        = (idx.get ⟨i, Nat.lt_of_succ_lt hi⟩).out_offset
          + (idx.get ⟨i, Nat.lt_of_succ_lt hi⟩).orig_size := by
  intro idx
  induction idx with
  | nil =>
    intro a b _ i hi
    exact absurd hi (by simp)
  | cons x rest ih =>
    intro a b hch i hi
    obtain ⟨hx1, hx2, hrest⟩ := hch
    match i with
    | 0 =>
      match rest, hrest with
      | y :: rest2, ⟨hy1, hy2, _⟩ =>
        refine ⟨?_, ?_⟩
        · simpa using hy1
        · simp only [List.get]
          omega
    | Nat.succ j =>
      have hj : j + 1 < rest.length := by
        simpa using hi
      exact ih (x.in_offset + x.comp_size) (b + x.orig_size) hrest j hj

/-- First entry of a chained index: payload right after the first
header, output region starting at zero. -/
theorem indexChained_head (idx : List BlockIndex) (a b : Nat)
    (hch : IndexChained idx a b) (h0 : 0 < idx.length) :
    (idx.get ⟨0, h0⟩).in_offset = a + HEADER_SIZE ∧
      (idx.get ⟨0, h0⟩).out_offset = b := by
  match idx, hch with
  | x :: rest, ⟨hx1, hx2, _⟩ => exact ⟨hx1, hx2⟩

/-- Appending a single byte behind a stream the index pass accepts makes
the pass fail: the cursor can no longer land exactly on the end. -/
theorem buildIndex_append_one : ∀ (E : List Nat) (a b : Nat) (idx : List BlockIndex)
    (tot x : Nat), buildIndex E a b = some (idx, tot) →
    buildIndex (E ++ [x]) a b = none := by
  intro E a b
  induction E, a, b using buildIndex.induct with
  | case1 b0 b1 b2 b3 c0 c1 c2 c3 tail inOff outTot orig comp hbad =>
    intro idx tot x h
    rw [buildIndex, if_pos hbad] at h
    exact absurd h (by simp)
  | case2 b0 b1 b2 b3 c0 c1 c2 c3 tail inOff outTot orig comp hok hrec ih =>
    intro idx tot x h
    rw [buildIndex, if_neg hok, hrec] at h
    exact absurd h (by simp)
  | case3 b0 b1 b2 b3 c0 c1 c2 c3 tail inOff outTot orig comp hok idx0 tot0 hrec ih =>
    intro idx tot x h
    have hcomp : comp ≤ tail.length := by
      rcases not_or.mp hok with ⟨_, h2⟩
      omega
    have hcons : (b0 :: b1 :: b2 :: b3 :: c0 :: c1 :: c2 :: c3 :: tail) ++ [x]
        = b0 :: b1 :: b2 :: b3 :: c0 :: c1 :: c2 :: c3 :: (tail ++ [x]) := by
      simp
    rw [hcons, buildIndex]
    have hok2 : ¬(MAX_BLOCK_SIZE < orig ∨ (tail ++ [x]).length < comp) := by
      rcases not_or.mp hok with ⟨h1, h2⟩
      simp only [List.length_append, List.length_cons, List.length_nil]
      omega
    rw [if_neg hok2, List.drop_append_of_le_length hcomp, ih idx0 tot0 x hrec]
  | case4 rest a b hne hemp =>
    intro idx tot x h
    have hrest : rest = [] := List.isEmpty_iff.mp hemp
    subst hrest
    simp [buildIndex]
  | case5 rest a b hne hemp =>
    intro idx tot x h
    rw [buildIndex] at h
    · rw [if_neg hemp] at h
      exact absurd h (by simp)
    · exact hne

/-- If any indexed block fails to decode, the whole second pass fails,
whatever the buffer. -/
theorem decodeBlocks_none_of_mem (c : Codec) (E : List Nat) (b : BlockIndex) :
    ∀ (idx : List BlockIndex), b ∈ idx → decodeBlockContent c E b = none →
      ∀ buf, decodeBlocks c E idx buf = none := by
  intro idx
  induction idx with
  | nil =>
    intro hmem
    exact absurd hmem (by simp)
  | cons y rest ih =>
    intro hmem hnone buf
    rcases List.mem_cons.mp hmem with hy | hy
    · subst hy
      simp [decodeBlocks, hnone]
    · rw [decodeBlocks]
      match hcy : decodeBlockContent c E y with
      | none => rfl
      | some out => exact ih hy hnone (writeAt buf y.out_offset out)

/-! ### Decode correctness over an encoded stream -/

/-- Relation between an encoded block result and the original block
bytes it must decode back to: raw payloads are the block itself,
compressed payloads decompress to it. -/
def RoundOK (c : Codec) (r : BlockResult) (b : List Nat) : Prop :=
  b.length = r.orig_size ∧
    (if r.comp_size = r.orig_size then r.comp_buf = b
     else c.decompress r.comp_buf r.orig_size = some b)

theorem writeAt_length (buf : List Nat) (off : Nat) (data : List Nat)
    (h : off + data.length ≤ buf.length) : (writeAt buf off data).length = buf.length := by
  simp only [writeAt, List.length_append, List.length_take, List.length_drop]
  omega

theorem decodeBlocks_stream (c : Codec) (rs : List BlockResult) (origs : List (List Nat))
    (hf : List.Forall₂ (RoundOK c) rs origs) :
    ∀ (P buf : List Nat) (tot : Nat),
      (∀ r ∈ rs, WFResult r) →
      tot + sumOrig rs ≤ buf.length →
      decodeBlocks c (P ++ streamOf rs) (mkIdx rs P.length tot) buf =
        some (buf.take tot ++ origs.flatten ++ buf.drop (tot + sumOrig rs)) := by
  induction hf with
  | nil =>
    intro P buf tot _ _
    simp [streamOf, mkIdx, decodeBlocks, sumOrig, List.take_append_drop]
  | cons hro hf2 ih =>
    rename_i r o rest orest
    intro P buf tot hwf hlen
    have hr : WFResult r := hwf r (by simp)
    obtain ⟨hb1, hb2, hb3⟩ := hr
    obtain ⟨ho1, ho2⟩ := hro
    have hsum : sumOrig (r :: rest) = r.orig_size + sumOrig rest := by
      simp [sumOrig]
    -- the full stream, reassociated around the first frame's header
    have hE : P ++ streamOf (r :: rest)
        = (P ++ (u32le r.orig_size ++ u32le r.comp_size)) ++ (r.comp_buf ++ streamOf rest) := by
      have : streamOf (r :: rest) = frameOf r ++ streamOf rest := by simp [streamOf]
      rw [this, frameOf_wf r ⟨hb1, hb2, hb3⟩]
      simp [List.append_assoc]
    have hlen8 : (P ++ (u32le r.orig_size ++ u32le r.comp_size)).length = P.length + HEADER_SIZE := by
      simp [u32le, HEADER_SIZE]
    -- the first entry's payload slice
    have hdrop : (P ++ streamOf (r :: rest)).drop (P.length + HEADER_SIZE)
        = r.comp_buf ++ streamOf rest := by
      rw [hE, List.drop_left' hlen8]
    have hcontent : decodeBlockContent c (P ++ streamOf (r :: rest))
        ⟨P.length + HEADER_SIZE, tot, r.comp_size, r.orig_size⟩ = some o := by
      unfold decodeBlockContent
      simp only [hdrop]
      by_cases hc : r.comp_size = r.orig_size
      · rw [if_pos hc]
        rw [if_pos hc] at ho2
        rw [← ho2, List.take_left' (by omega : (r.comp_buf).length = r.orig_size)]
      · rw [if_neg hc]
        rw [if_neg hc] at ho2
        rw [List.take_left' hb1, ho2]
        simp [ho1]
    -- one step of decodeBlocks
    rw [show mkIdx (r :: rest) P.length tot
        = (⟨P.length + HEADER_SIZE, tot, r.comp_size, r.orig_size⟩ : BlockIndex)
          :: mkIdx rest (P.length + HEADER_SIZE + r.comp_size) (tot + r.orig_size) from rfl]
    rw [decodeBlocks, hcontent]
    dsimp only
    -- recast for the induction hypothesis
    have hP2 : (P ++ frameOf r).length = P.length + HEADER_SIZE + r.comp_size := by
      simp [frameOf_length r ⟨hb1, hb2, hb3⟩]
      omega
    have hEstep : P ++ streamOf (r :: rest) = (P ++ frameOf r) ++ streamOf rest := by
      have : streamOf (r :: rest) = frameOf r ++ streamOf rest := by simp [streamOf]
      rw [this, List.append_assoc]
    have hbuflen : (writeAt buf tot o).length = buf.length :=
      writeAt_length buf tot o (by omega)
    have hrec := ih (P ++ frameOf r) (writeAt buf tot o) (tot + r.orig_size)
      (fun x hx => hwf x (by simp [hx])) (by omega)
    rw [hP2] at hrec
    rw [hEstep, hrec]
    -- identify the final buffer
    have htake : (writeAt buf tot o).take (tot + r.orig_size) = buf.take tot ++ o := by
      unfold writeAt
      exact List.take_left' (by simp [List.length_take]; omega)
    have hdrop2 : (writeAt buf tot o).drop (tot + r.orig_size + sumOrig rest)
        = buf.drop (tot + sumOrig (r :: rest)) := by
      unfold writeAt
      have h1 : ((buf.take tot ++ o)).length = tot + r.orig_size := by
        simp [List.length_take]; omega
      have h2 : tot + r.orig_size + sumOrig rest = (buf.take tot ++ o).length + sumOrig rest := by
        omega
      rw [h2, List.drop_append, ho1, List.drop_drop]
      congr 1
      rw [hsum]
      omega
    rw [htake, hdrop2]
    simp [hsum, List.append_assoc]

theorem roundOK_encodeBlock (c : Codec) (hc : CodecOK c) (B : List Nat) (bs i : Nat) :
    RoundOK c (encodeBlock c B bs i) (blockBytes B bs i) := by
  have hlen := blockBytes_length B bs i
  unfold RoundOK
  simp only [encodeBlock]
  split
  case isTrue h =>
    refine ⟨by simpa [blockBytes] using hlen, ?_⟩
    rw [if_neg (by dsimp; omega)]
    dsimp only
    have := hc (blockBytes B bs i) (by simpa [blockBytes] using h.1)
      (by rw [hlen]; simpa [blockBytes] using h.2)
    rw [hlen] at this
    simpa [blockBytes] using this
  case isFalse h =>
    exact ⟨by simpa [blockBytes] using hlen, by rw [if_pos rfl]; rfl⟩

theorem forall2_map {α β γ : Type} {P : β → γ → Prop} (f : α → β) (g : α → γ) :
    ∀ l : List α, (∀ x ∈ l, P (f x) (g x)) → List.Forall₂ P (l.map f) (l.map g) := by
  intro l
  induction l with
  | nil => intro; simp
  | cons x xs ih =>
    intro h
    simp only [List.map_cons]
    exact List.Forall₂.cons (h x (by simp)) (ih fun y hy => h y (by simp [hy]))

theorem numBlocks_zero (bs : Nat) : numBlocks 0 bs = 0 := by
  unfold numBlocks
  rcases Nat.eq_zero_or_pos bs with h | h
  · simp [h]
  · exact Nat.div_eq_of_lt (by omega)

theorem numBlocks_succ (N bs : Nat) (hbs : 0 < bs) (hN : 0 < N) :
    numBlocks N bs = numBlocks (N - bs) bs + 1 := by
  unfold numBlocks
  rcases Nat.lt_or_ge N bs with h | h
  · have h0 : N - bs = 0 := by omega
    rw [h0]
    have h1 : (N + bs - 1) / bs = 1 :=
      Nat.div_eq_of_lt_le (by omega) (by omega)
    have h2 : (0 + bs - 1) / bs = 0 := Nat.div_eq_of_lt (by omega)
    omega
  · have heq : N + bs - 1 = ((N - bs) + bs - 1) + bs := by omega
    rw [heq, Nat.add_div_right _ hbs]

theorem blockOrigSize_shift (N bs i : Nat) :
    blockOrigSize N bs (i + 1) = blockOrigSize (N - bs) bs i := by
  unfold blockOrigSize
  rw [Nat.succ_mul]
  split_ifs <;> omega

theorem blockBytes_shift (B : List Nat) (bs i : Nat) :
    blockBytes B bs (i + 1) = blockBytes (B.drop bs) bs i := by
  unfold blockBytes
  rw [List.length_drop, ← blockOrigSize_shift, List.drop_drop]
  have harg : bs + i * bs = (i + 1) * bs := by
    rw [Nat.succ_mul]
    omega
  rw [harg]

theorem flatten_blockBytes (bs : Nat) (hbs : 0 < bs) :
    ∀ (N : Nat) (B : List Nat), B.length = N →
      ((List.range (numBlocks N bs)).map (blockBytes B bs)).flatten = B := by
  intro N
  induction N using Nat.strong_induction_on with
  | _ N ih =>
    intro B hN
    rcases Nat.eq_zero_or_pos N with h0 | h0
    · subst h0
      rw [numBlocks_zero]
      simpa using (List.length_eq_zero.mp hN).symm
    · rw [numBlocks_succ N bs hbs h0, List.range_succ_eq_map]
      simp only [List.map_cons, List.map_map, List.flatten_cons]
      have hmap : (List.range (numBlocks (N - bs) bs)).map (blockBytes B bs ∘ Nat.succ)
          = (List.range (numBlocks (N - bs) bs)).map (blockBytes (B.drop bs) bs) := by
        refine List.map_eq_map_iff.mpr fun i _ => ?_
        exact blockBytes_shift B bs i
      rw [hmap]
      have hdroplen : (B.drop bs).length = N - bs := by simp [hN]
      rw [ih (N - bs) (by omega) (B.drop bs) hdroplen]
      unfold blockBytes blockOrigSize
      simp only [Nat.zero_mul, List.drop_zero, Nat.zero_add, hN]
      split_ifs with hcase
      · rw [List.take_append_drop]
      · rw [Nat.sub_zero, ← hN, List.take_length,
          List.drop_eq_nil_of_le (by omega), List.append_nil]


/-! ### Claims -/

/-- C1: for every byte sequence `B` and every block size `S` with
`0 < S ≤ MAX_BLOCK_SIZE`, decoding the encoding of `B` with block size
`S` returns exactly `B`, assuming the external single-block codec meets
its round-trip contract. -/
theorem roundtrip_encode_decode (c : Codec) (hc : CodecOK c) (B : List Nat) (bs : Nat)
    (h1 : 0 < bs) (h2 : bs ≤ MAX_BLOCK_SIZE) :
    (compress_hybrid c B bs).bind (decompress_hybrid c) = some B := by
  unfold compress_hybrid
  rw [if_neg (by omega), if_neg (by omega), Option.some_bind]
  unfold decompress_hybrid
  have hwf : ∀ r ∈ blockResults c B bs, WFResult r := by
    intro r hr
    obtain ⟨i, _, rfl⟩ := List.mem_map.mp hr
    exact encodeBlock_wf c B bs i h2
  rw [buildIndex_streamOf _ 0 0 hwf]
  have hf : List.Forall₂ (RoundOK c) (blockResults c B bs)
      ((List.range (numBlocks B.length bs)).map (blockBytes B bs)) :=
    forall2_map _ _ _ (fun i _ => roundOK_encodeBlock c hc B bs i)
  have hres := decodeBlocks_stream c (blockResults c B bs) _ hf []
    (List.replicate (0 + sumOrig (blockResults c B bs)) 0) 0 hwf (by simp)
  rw [List.nil_append, List.length_nil] at hres
  dsimp only
  rw [hres]
  rw [List.take_zero, List.nil_append, Nat.zero_add,
    List.drop_eq_nil_of_le (by simp), List.append_nil]
  rw [flatten_blockBytes bs h1 B.length B rfl]

/-- A degenerate external codec whose compression always fails (the
`LZ4_compress_default` return-0 case), so every block takes the raw-copy
path.  It satisfies the codec contract vacuously. -/
def nullCodec : Codec := ⟨fun _ => [], fun _ _ => none⟩

/-- Witness for C1: the contract holds for `nullCodec` and a concrete
round trip succeeds. -/
theorem roundtrip_encode_decode_witness :
    CodecOK nullCodec ∧
      (compress_hybrid nullCodec [1, 2, 3] 2).bind (decompress_hybrid nullCodec)
        = some [1, 2, 3] := by
  have hok : CodecOK nullCodec := by
    intro b h
    simp [nullCodec] at h
  exact ⟨hok, roundtrip_encode_decode nullCodec hok [1, 2, 3] 2 (by decide) (by decide)⟩

/-- C2: every block the encoder emits has `stored_size ≤ original_size`;
the compressed result is kept only when strictly smaller, and
`stored_size = original_size` holds exactly when the payload is a
verbatim copy of the block's bytes. -/
theorem encoder_fallback_safety (c : Codec) (B : List Nat) (bs i : Nat) :
    (encodeBlock c B bs i).comp_size ≤ (encodeBlock c B bs i).orig_size ∧
      ((encodeBlock c B bs i).comp_size = (encodeBlock c B bs i).orig_size ↔
        (encodeBlock c B bs i).comp_buf = blockBytes B bs i) := by
  have hlen := blockBytes_length B bs i
  simp only [encodeBlock]
  split
  case isTrue h =>
    dsimp only
    refine ⟨by omega, ⟨fun he => by omega, fun hbuf => ?_⟩⟩
    exfalso
    have hl := congrArg List.length hbuf
    rw [hlen] at hl
    have : (blockBytes B bs i) = (B.drop (i * bs)).take (blockOrigSize B.length bs i) := rfl
    omega
  case isFalse h =>
    dsimp only
    exact ⟨Nat.le_refl _, ⟨fun _ => rfl, fun _ => rfl⟩⟩

theorem mul_lt_of_lt_numBlocks (N bs i : Nat) (hi : i < numBlocks N bs) : i * bs < N := by
  unfold numBlocks at hi
  have h1 : (i + 1) * bs ≤ ((N + bs - 1) / bs) * bs := Nat.mul_le_mul_right bs hi
  have h2 : ((N + bs - 1) / bs) * bs ≤ N + bs - 1 := Nat.div_mul_le_self _ _
  have h3 : (i + 1) * bs = i * bs + bs := by rw [Nat.succ_mul]
  have h4 : 0 < bs := by
    by_contra hb
    have : bs = 0 := by omega
    subst this
    simp [Nat.div_zero] at hi
  omega

/-- C7: the partitioner produces `ceil(N / bs)` blocks (characterized by
`N ≤ n*bs < N + bs`); block `i` covers `[i*bs, min((i+1)*bs, N))`; every
block except possibly the last has length exactly `bs`; and an empty
input yields zero blocks. -/
theorem partitioner_spec (N bs : Nat) (hbs : 0 < bs) :
    (N ≤ numBlocks N bs * bs ∧ numBlocks N bs * bs < N + bs) ∧
      (∀ i, i < numBlocks N bs →
        blockOrigSize N bs i ≤ bs ∧
          i * bs + blockOrigSize N bs i = min ((i + 1) * bs) N) ∧
      (∀ i, i + 1 < numBlocks N bs → blockOrigSize N bs i = bs) ∧
      numBlocks 0 bs = 0 := by
  refine ⟨⟨?_, ?_⟩, fun i hi => ⟨blockOrigSize_le_bs N bs i, ?_⟩, fun i hi => ?_, numBlocks_zero bs⟩
  · have h1 : N + bs - 1 < (numBlocks N bs + 1) * bs :=
      (Nat.div_lt_iff_lt_mul hbs).mp (Nat.lt_succ_self _)
    have h2 : (numBlocks N bs + 1) * bs = numBlocks N bs * bs + bs := by rw [Nat.succ_mul]
    omega
  · exact Nat.lt_of_le_of_lt (Nat.div_mul_le_self _ _) (by omega)
  · have hmul := mul_lt_of_lt_numBlocks N bs i hi
    have h3 : (i + 1) * bs = i * bs + bs := by rw [Nat.succ_mul]
    unfold blockOrigSize
    split <;> omega
  · have hmul := mul_lt_of_lt_numBlocks N bs (i + 1) hi
    have h3 : (i + 1) * bs = i * bs + bs := by rw [Nat.succ_mul]
    unfold blockOrigSize
    split <;> omega

/-- Witness for C7 at `N = 10`, `bs = 4` (the spec's concrete scenario:
3 blocks of sizes 4, 4, 2). -/
theorem partitioner_spec_witness :
    (10 ≤ numBlocks 10 4 * 4 ∧ numBlocks 10 4 * 4 < 10 + 4) ∧
      (∀ i, i < numBlocks 10 4 →
        blockOrigSize 10 4 i ≤ 4 ∧
          i * 4 + blockOrigSize 10 4 i = min ((i + 1) * 4) 10) ∧
      (∀ i, i + 1 < numBlocks 10 4 → blockOrigSize 10 4 i = 4) ∧
      numBlocks 0 4 = 0 :=
  partitioner_spec 10 4 (by decide)

/-- C8: `compress_hybrid` fails (returns no data) precisely when the
requested block size is zero or exceeds `MAX_BLOCK_SIZE`; every block
size in `(0, MAX_BLOCK_SIZE]` passes validation and yields output. -/
theorem compress_validation (c : Codec) (B : List Nat) (bs : Nat) :
    (compress_hybrid c B bs = none ↔ (bs = 0 ∨ MAX_BLOCK_SIZE < bs)) ∧
      ((compress_hybrid c B bs).isSome ↔ (0 < bs ∧ bs ≤ MAX_BLOCK_SIZE)) := by
  unfold compress_hybrid
  split_ifs with h1 h2 <;> simp <;> omega

/-- C3: during the sequential index pass, a header with
`original_size > MAX_BLOCK_SIZE` or with `stored_size` exceeding the
bytes remaining after the header makes the pass fail immediately,
whatever follows; a failed pass means the whole decode returns no data;
and appending one trailing byte to any accepted stream makes the whole
decode fail. -/
theorem decode_validation_failure :
    (∀ (b0 b1 b2 b3 c0 c1 c2 c3 : Nat) (tail : List Nat) (off tot : Nat),
      (MAX_BLOCK_SIZE < bytesToU32 b0 b1 b2 b3 ∨ tail.length < bytesToU32 c0 c1 c2 c3) →
      buildIndex (b0 :: b1 :: b2 :: b3 :: c0 :: c1 :: c2 :: c3 :: tail) off tot = none) ∧
    (∀ (c : Codec) (E : List Nat), buildIndex E 0 0 = none → decompress_hybrid c E = none) ∧
    (∀ (E : List Nat) (idx : List BlockIndex) (tot x : Nat) (c : Codec),
      buildIndex E 0 0 = some (idx, tot) → decompress_hybrid c (E ++ [x]) = none) := by
  refine ⟨?_, ?_, ?_⟩
  · intro b0 b1 b2 b3 c0 c1 c2 c3 tail off tot hbad
    rw [buildIndex, if_pos hbad]
  · intro c E h
    unfold decompress_hybrid
    rw [h]
  · intro E idx tot x c h
    unfold decompress_hybrid
    rw [buildIndex_append_one E 0 0 idx tot x h]

/-- Witness for C3: an oversized `original_size` header, a 1-byte
stream, and a valid one-frame stream with one appended byte, all fail. -/
theorem decode_validation_failure_witness :
    buildIndex (255 :: 255 :: 255 :: 255 :: 0 :: 0 :: 0 :: 0 :: ([] : List Nat)) 0 0 = none ∧
      decompress_hybrid nullCodec [5] = none ∧
      decompress_hybrid nullCodec ([1, 0, 0, 0, 1, 0, 0, 0, 7] ++ [0]) = none := by
  refine ⟨decode_validation_failure.1 255 255 255 255 0 0 0 0 [] 0 0 (by decide),
    decode_validation_failure.2.1 nullCodec [5] (by simp [buildIndex]),
    decode_validation_failure.2.2 [1, 0, 0, 0, 1, 0, 0, 0, 7] [⟨8, 0, 1, 1⟩] 1 0 nullCodec ?_⟩
  simp [buildIndex, bytesToU32, MAX_BLOCK_SIZE, HEADER_SIZE]

/-- C4: if some block of an accepted stream has `stored_size ≠
original_size` and the single-block decompressor does not produce
exactly `original_size` bytes from its payload, the whole decode returns
no data. -/
theorem decode_size_mismatch_fails (c : Codec) (E : List Nat) (idx : List BlockIndex)
    (tot : Nat) (b : BlockIndex) (h1 : buildIndex E 0 0 = some (idx, tot)) (h2 : b ∈ idx)
    (h3 : b.comp_size ≠ b.orig_size)
    (h4 : ∀ out, c.decompress ((E.drop b.in_offset).take b.comp_size) b.orig_size = some out →
      out.length ≠ b.orig_size) :
    decompress_hybrid c E = none := by
  have hnone : decodeBlockContent c E b = none := by
    unfold decodeBlockContent
    rw [if_neg h3]
    cases hdec : c.decompress ((E.drop b.in_offset).take b.comp_size) b.orig_size with
    | none => rfl
    | some out =>
      dsimp only
      rw [if_neg (h4 out hdec)]
  unfold decompress_hybrid
  rw [h1]
  exact decodeBlocks_none_of_mem c E b idx h2 hnone _

/-- Witness for C4: a frame declaring `orig_size = 2`, `stored_size = 1`
decoded with a decompressor that always fails. -/
theorem decode_size_mismatch_fails_witness :
    decompress_hybrid nullCodec [2, 0, 0, 0, 1, 0, 0, 0, 9] = none :=
  decode_size_mismatch_fails nullCodec [2, 0, 0, 0, 1, 0, 0, 0, 9] [⟨8, 0, 1, 2⟩] 2
    ⟨8, 0, 1, 2⟩ (by simp [buildIndex, bytesToU32, MAX_BLOCK_SIZE, HEADER_SIZE])
    (by simp) (by decide) (fun out h => by simp [nullCodec] at h)

/-- C5: the index built by the sequential pass is monotone and tiles
both streams: each entry's header starts exactly where the previous
payload ends (payload `HEADER_SIZE` after its header), the first output
region starts at 0, each next output region starts exactly where the
previous ends, and the accumulated total is the sum of all
`orig_size`. -/
theorem index_invariant (E : List Nat) (idx : List BlockIndex) (tot : Nat)
    (h : buildIndex E 0 0 = some (idx, tot)) :
    (∀ i, (hi : i + 1 < idx.length) →
      (idx.get ⟨i + 1, hi⟩).in_offset
        = (idx.get ⟨i, Nat.lt_of_succ_lt hi⟩).in_offset
          + (idx.get ⟨i, Nat.lt_of_succ_lt hi⟩).comp_size + HEADER_SIZE ∧
      (idx.get ⟨i + 1, hi⟩).out_offset
        = (idx.get ⟨i, Nat.lt_of_succ_lt hi⟩).out_offset
          + (idx.get ⟨i, Nat.lt_of_succ_lt hi⟩).orig_size) ∧
    (∀ h0 : 0 < idx.length,
      (idx.get ⟨0, h0⟩).in_offset = HEADER_SIZE ∧ (idx.get ⟨0, h0⟩).out_offset = 0) ∧
    tot = (idx.map (fun b => b.orig_size)).sum := by
  obtain ⟨hch, hsum⟩ := buildIndex_chained E 0 0 idx tot h
  refine ⟨indexChained_get idx 0 0 hch, fun h0 => ?_, by simpa using hsum⟩
  simpa using indexChained_head idx 0 0 hch h0

/-- Witness for C5 on a concrete two-frame stream (one raw frame, one
compressed frame). -/
theorem index_invariant_witness :
    (∀ i, (hi : i + 1 < ([⟨8, 0, 1, 1⟩, ⟨17, 1, 1, 2⟩] : List BlockIndex).length) →
      (([⟨8, 0, 1, 1⟩, ⟨17, 1, 1, 2⟩] : List BlockIndex).get ⟨i + 1, hi⟩).in_offset
        = (([⟨8, 0, 1, 1⟩, ⟨17, 1, 1, 2⟩] : List BlockIndex).get
            ⟨i, Nat.lt_of_succ_lt hi⟩).in_offset
          + (([⟨8, 0, 1, 1⟩, ⟨17, 1, 1, 2⟩] : List BlockIndex).get
            ⟨i, Nat.lt_of_succ_lt hi⟩).comp_size + HEADER_SIZE ∧
      (([⟨8, 0, 1, 1⟩, ⟨17, 1, 1, 2⟩] : List BlockIndex).get ⟨i + 1, hi⟩).out_offset
        = (([⟨8, 0, 1, 1⟩, ⟨17, 1, 1, 2⟩] : List BlockIndex).get
            ⟨i, Nat.lt_of_succ_lt hi⟩).out_offset
          + (([⟨8, 0, 1, 1⟩, ⟨17, 1, 1, 2⟩] : List BlockIndex).get
            ⟨i, Nat.lt_of_succ_lt hi⟩).orig_size) ∧
    (∀ h0 : 0 < ([⟨8, 0, 1, 1⟩, ⟨17, 1, 1, 2⟩] : List BlockIndex).length,
      (([⟨8, 0, 1, 1⟩, ⟨17, 1, 1, 2⟩] : List BlockIndex).get ⟨0, h0⟩).in_offset = HEADER_SIZE ∧
      (([⟨8, 0, 1, 1⟩, ⟨17, 1, 1, 2⟩] : List BlockIndex).get ⟨0, h0⟩).out_offset = 0) ∧
    3 = (([⟨8, 0, 1, 1⟩, ⟨17, 1, 1, 2⟩] : List BlockIndex).map (fun b => b.orig_size)).sum :=
  index_invariant [1, 0, 0, 0, 1, 0, 0, 0, 7, 2, 0, 0, 0, 1, 0, 0, 0, 9]
    [⟨8, 0, 1, 1⟩, ⟨17, 1, 1, 2⟩] 3
    (by simp [buildIndex, bytesToU32, MAX_BLOCK_SIZE, HEADER_SIZE])

/-- C9: the index pass imposes no relation between `stored_size` and
`original_size` — a header with any `stored_size` (including one
strictly greater than `original_size`) is accepted whenever
`original_size ≤ MAX_BLOCK_SIZE` and `stored_size` fits the remaining
input, and is recorded as an entry; a frame with `stored_size ≠
original_size` is treated as compressed, and decodes successfully
exactly when the single-block decompressor reconstructs exactly
`original_size` bytes from its payload. -/
theorem index_no_size_relation :
    (∀ (orig comp : Nat) (tail : List Nat) (off tot : Nat),
      orig ≤ MAX_BLOCK_SIZE → comp ≤ tail.length → comp < 4294967296 →
      buildIndex (u32le orig ++ u32le comp ++ tail) off tot =
        match buildIndex (tail.drop comp) (off + HEADER_SIZE + comp) (tot + orig) with
        | none => none
        | some (idx, t) => some (⟨off + HEADER_SIZE, tot, comp, orig⟩ :: idx, t)) ∧
    (∀ (c : Codec) (E : List Nat) (b : BlockIndex) (out : List Nat),
      b.comp_size ≠ b.orig_size →
      (decodeBlockContent c E b = some out ↔
        c.decompress ((E.drop b.in_offset).take b.comp_size) b.orig_size = some out ∧
          out.length = b.orig_size)) := by
  refine ⟨?_, ?_⟩
  · intro orig comp tail off tot h1 h2 h3
    have homax : orig < 4294967296 := by
      have : MAX_BLOCK_SIZE < 4294967296 := by decide
      omega
    rw [buildIndex_cons8 orig comp tail off tot homax h3, if_neg (by omega)]
  · intro c E b out hne
    unfold decodeBlockContent
    rw [if_neg hne]
    constructor
    · intro h
      cases hdec : c.decompress ((E.drop b.in_offset).take b.comp_size) b.orig_size with
      | none => rw [hdec] at h; exact absurd h (by simp)
      | some o2 =>
        rw [hdec] at h
        dsimp only at h
        by_cases hl : o2.length = b.orig_size
        · rw [if_pos hl] at h
          injection h with h5
          constructor
          · rw [h5]
          · rw [← h5]
            exact hl
        · rw [if_neg hl] at h
          exact absurd h (by simp)
    · intro h
      rw [h.1]
      dsimp only
      rw [if_pos h.2]

/-- A degenerate external codec whose decompressor always reports
producing exactly the requested number of bytes (all sevens). -/
def repCodec : Codec := ⟨fun _ => [], fun _ n => some (List.replicate n 7)⟩

/-- Witness for C9: a frame declaring `stored_size = 2 >
original_size = 1` is accepted by the index pass, and its decode
succeeds exactly when the decompressor returns 1 byte. -/
theorem index_no_size_relation_witness :
    buildIndex (u32le 1 ++ u32le 2 ++ [5, 6]) 0 0 = some ([⟨8, 0, 2, 1⟩], 1) ∧
      decodeBlockContent repCodec [1, 0, 0, 0, 2, 0, 0, 0, 5, 6] ⟨8, 0, 2, 1⟩ = some [7] := by
  constructor
  · rw [index_no_size_relation.1 1 2 [5, 6] 0 0 (by decide) (by decide) (by decide)]
    simp [buildIndex, HEADER_SIZE]
  · refine (index_no_size_relation.2 repCodec [1, 0, 0, 0, 2, 0, 0, 0, 5, 6]
      ⟨8, 0, 2, 1⟩ [7] (by decide)).mpr ⟨rfl, rfl⟩

/-- C10: each frame's 8-byte header holds `original_size` in bytes 0-3
and `stored_size` in bytes 4-7, both as byte-serialized u32 values, and
the decoder's index pass reads the identical layout, recovering both
fields of every encoder-written frame unchanged. -/
theorem header_layout_roundtrip (r : BlockResult) (rest : List Nat) (off tot : Nat)
    (h : WFResult r) :
    (frameOf r).take 4 = u32le r.orig_size ∧
      ((frameOf r).drop 4).take 4 = u32le r.comp_size ∧
      buildIndex (frameOf r ++ rest) off tot =
        match buildIndex rest (off + HEADER_SIZE + r.comp_size) (tot + r.orig_size) with
        | none => none
        | some (idx, t) =>
          some (⟨off + HEADER_SIZE, tot, r.comp_size, r.orig_size⟩ :: idx, t) := by
  refine ⟨?_, ?_, buildIndex_frame r rest off tot h⟩
  · rw [frameOf_wf r h]
    simp [u32le]
  · rw [frameOf_wf r h]
    simp [u32le]

/-- Witness for C10 on a concrete raw frame followed by another frame. -/
theorem header_layout_roundtrip_witness :
    (frameOf ⟨0, 1, 1, [7]⟩).take 4 = u32le 1 ∧
      ((frameOf ⟨0, 1, 1, [7]⟩).drop 4).take 4 = u32le 1 ∧
      buildIndex (frameOf ⟨0, 1, 1, [7]⟩ ++ [1, 0, 0, 0, 1, 0, 0, 0, 8]) 0 0
        = some ([⟨8, 0, 1, 1⟩, ⟨17, 1, 1, 1⟩], 2) := by
  obtain ⟨h1, h2, h3⟩ := header_layout_roundtrip ⟨0, 1, 1, [7]⟩ [1, 0, 0, 0, 1, 0, 0, 0, 8]
    0 0 ⟨rfl, by decide, by decide⟩
  refine ⟨h1, h2, ?_⟩
  rw [h3]
  simp [buildIndex, bytesToU32, MAX_BLOCK_SIZE, HEADER_SIZE]

theorem sum_blockOrigSize (N bs : Nat) :
    ∀ k, ((List.range k).map (blockOrigSize N bs)).sum = min (k * bs) N := by
  intro k
  induction k with
  | zero => simp
  | succ k ih =>
    rw [List.range_succ, List.map_append, List.sum_append, ih]
    have h3 : (k + 1) * bs = k * bs + bs := by rw [Nat.succ_mul]
    simp only [List.map_cons, List.map_nil, List.sum_cons, List.sum_nil]
    unfold blockOrigSize
    split <;> omega

theorem streamOf_length (rs : List BlockResult) (h : ∀ r ∈ rs, WFResult r) :
    (streamOf rs).length = (rs.map (fun r => r.comp_size + HEADER_SIZE)).sum := by
  unfold streamOf
  rw [List.length_flatten, List.map_map]
  refine congrArg List.sum (List.map_eq_map_iff.mpr fun r hr => ?_)
  have := frameOf_length r (h r hr)
  simp only [Function.comp_apply, this]
  omega

theorem sum_map_comp_add_le (rs : List BlockResult) (h : ∀ r ∈ rs, r.comp_size ≤ r.orig_size) :
    (rs.map (fun r => r.comp_size + HEADER_SIZE)).sum
      ≤ (rs.map (fun r => r.orig_size)).sum + rs.length * HEADER_SIZE := by
  induction rs with
  | nil => simp
  | cons r rest ih =>
    simp only [List.map_cons, List.sum_cons, List.length_cons]
    have h1 := h r (by simp)
    have h2 := ih (fun x hx => h x (by simp [hx]))
    have h3 : (rest.length + 1) * HEADER_SIZE = rest.length * HEADER_SIZE + HEADER_SIZE := by
      rw [Nat.succ_mul]
    omega

/-- C6: the encoded output's length is exactly the sum over blocks of
`stored_size + HEADER_SIZE`, and is at most
`N + num_blocks * HEADER_SIZE`. -/
theorem encoded_length_bound (c : Codec) (B : List Nat) (bs : Nat) (out : List Nat)
    (h1 : 0 < bs) (h2 : compress_hybrid c B bs = some out) :
    out.length = ((blockResults c B bs).map (fun r => r.comp_size + HEADER_SIZE)).sum ∧
      out.length ≤ B.length + numBlocks B.length bs * HEADER_SIZE := by
  have hbs2 : bs ≤ MAX_BLOCK_SIZE := by
    by_contra hb
    unfold compress_hybrid at h2
    rw [if_pos (by omega)] at h2
    exact absurd h2 (by simp)
  have hout : out = streamOf (blockResults c B bs) := by
    unfold compress_hybrid at h2
    rw [if_neg (by omega), if_neg (by omega)] at h2
    exact (Option.some.inj h2).symm
  have hwf : ∀ r ∈ blockResults c B bs, WFResult r := fun r hr => by
    obtain ⟨i, _, rfl⟩ := List.mem_map.mp hr
    exact encodeBlock_wf c B bs i hbs2
  subst hout
  refine ⟨streamOf_length _ hwf, ?_⟩
  rw [streamOf_length _ hwf]
  have hle := sum_map_comp_add_le (blockResults c B bs) (fun r hr => (hwf r hr).2.1)
  have hsum : ((blockResults c B bs).map (fun r => r.orig_size)).sum ≤ B.length := by
    have hmapeq : (blockResults c B bs).map (fun r => r.orig_size)
        = (List.range (numBlocks B.length bs)).map (blockOrigSize B.length bs) := by
      unfold blockResults
      rw [List.map_map]
      exact List.map_eq_map_iff.mpr fun i _ => encodeBlock_orig c B bs i
    rw [hmapeq, sum_blockOrigSize]
    omega
  have hlen : (blockResults c B bs).length = numBlocks B.length bs := by
    simp [blockResults]
  rw [hlen] at hle
  omega

/-- Witness for C6 at a concrete encode: 3 input bytes, block size 2,
raw storage everywhere. -/
theorem encoded_length_bound_witness :
    ([2, 0, 0, 0, 2, 0, 0, 0, 1, 2, 1, 0, 0, 0, 1, 0, 0, 0, 3] : List Nat).length
        = ((blockResults nullCodec [1, 2, 3] 2).map (fun r => r.comp_size + HEADER_SIZE)).sum ∧
      ([2, 0, 0, 0, 2, 0, 0, 0, 1, 2, 1, 0, 0, 0, 1, 0, 0, 0, 3] : List Nat).length
        ≤ ([1, 2, 3] : List Nat).length + numBlocks ([1, 2, 3] : List Nat).length 2 * HEADER_SIZE :=
  encoded_length_bound nullCodec [1, 2, 3] 2
    [2, 0, 0, 0, 2, 0, 0, 0, 1, 2, 1, 0, 0, 0, 1, 0, 0, 0, 3] (by decide) (by decide)

end WarpHybrid
